import Mathlib

/-!
Verification of the Janus multi-agent subprocess supervisor
(`cumulus-bridge.js` and the local HTTP control API in `main.js`).

The development shallowly embeds the relevant JavaScript functions:
- a JSON value type mirrors what `JSON.parse` can return, with JS
  truthiness, `String(...)` coercion and `JSON.stringify`;
- `parseStreamSegments` / `extractTextFromStreamLine` are translated
  line by line from the source;
- the stdout line decoder (`buffer += data; lines = buffer.split('\n');
  buffer = lines.pop()`) is modelled on `List Char`;
- the active-process registry is modelled as a labelled transition
  system whose steps are exactly the registrations/deregistrations
  performed by `sendMessage`, the completion finalizer, the
  `spawn`-error handler and `killProcess`;
- the per-turn event emission (`stream-chunk`/`stream-segment`/
  `stream-error`/`stream-end`) is a function of the child's behaviour,
  using the documented Node semantics that `close` is always emitted
  after `exit`, or after `error` when the child failed to spawn.
-/

/-- JSON values as produced by `JSON.parse`.  Numbers are modelled as
integers (the stream protocol only carries integral counts/durations);
objects are ordered field lists, first binding wins on lookup. -/
inductive Json where
  | null : Json
  | bool (b : Bool) : Json
  | num (n : Int) : Json
  | str (s : String) : Json
  | arr (elems : List Json) : Json
  | obj (fields : List (String × Json)) : Json

/-- Field lookup, `undefined` (absent / receiver not an object) is `none`.
JS property access on non-objects yields `undefined`, matching the
`none` branches here. -/
def Json.getField : Json → String → Option Json
  | .obj fields, k => (fields.find? (fun f => f.1 = k)).map (·.2)
  | _, _ => none

/-- JS truthiness of a JSON value (`null`, `false`, `0` and `""` are
falsy; arrays and objects are always truthy). -/
def Json.truthy : Json → Bool
  | .null => false
  | .bool b => b
  | .num n => n ≠ 0
  | .str s => s ≠ ""
  | .arr _ => true
  | .obj _ => true

/-- Truthiness of an optional value; `undefined` is falsy. -/
def optTruthy : Option Json → Bool
  | some j => j.truthy
  | none => false

/-- JS strict equality of a field against a string literal
(`parsed.type === 'assistant'` and friends). -/
def fieldIsStr (v : Option Json) (lit : String) : Bool :=
  match v with
  | some (.str s) => s = lit
  | _ => false

/-- One escaped character of a JSON string literal. -/
def jsonEscapeChar (c : Char) : String :=
  if c = '"' then "\\\""
  else if c = '\\' then "\\\\"
  else if c = '\n' then "\\n"
  else if c = '\r' then "\\r"
  else if c = '\t' then "\\t"
  else if c.toNat < 32 then "\\u" ++ (Nat.toDigits 16 c.toNat).asString
  else String.singleton c

/-- `JSON.stringify` on a parsed value. -/
def Json.stringify : Json → String
  | .null => "null"
  | .bool b => if b then "true" else "false"
  | .num n => toString n
  | .str s => "\"" ++ String.join (s.data.map jsonEscapeChar) ++ "\""
  | .arr elems =>
      "[" ++ String.intercalate "," (elems.attach.map (fun e => e.1.stringify)) ++ "]"
  | .obj fields =>
      "\x7b" ++ String.intercalate ","
        (fields.attach.map (fun f =>
          "\"" ++ String.join (f.1.1.data.map jsonEscapeChar) ++ "\":" ++ f.1.2.stringify))
        ++ "\x7d"
decreasing_by
  · have h1 := List.sizeOf_lt_of_mem e.2
    simp only [Json.arr.sizeOf_spec]
    omega
  · obtain ⟨⟨a, b⟩, hf⟩ := f
    have h1 := List.sizeOf_lt_of_mem hf
    simp only [Prod.mk.sizeOf_spec] at h1
    simp only [Json.obj.sizeOf_spec]
    omega

/-- JS `String(...)` coercion of a JSON value (`Array.prototype.join`
and template literals use it). -/
def jsToString : Json → String
  | .null => "null"
  | .bool b => if b then "true" else "false"
  | .num n => toString n
  | .str s => s
  | .arr elems =>
      String.intercalate ","
        (elems.attach.map (fun e => match h : e.1 with
          | .null => ""
          | j => jsToString j))
  | .obj _ => "[object Object]"
decreasing_by
  have h1 := List.sizeOf_lt_of_mem e.2
  rw [h] at h1
  simp only [Json.arr.sizeOf_spec]
  omega

/-- A typed stream segment (`parseStreamSegments` output).  Payload
fields keep the raw JSON values the source stores (`block.text`,
`block.name`, `block.input` …); tool-result content is `none` exactly
when the source would store JS `undefined`. -/
inductive StreamSegment where
  | text (content : Json) : StreamSegment
  | thinking (content : Json) : StreamSegment
  | toolUse (tool : Option Json) (input : Json) : StreamSegment
  | toolResult (content : Option String) (isError : Bool) : StreamSegment
  | system (content : Json) : StreamSegment
  | result (durationMs : Option Json) (usage : Option Json) : StreamSegment

/-- One stdout line as seen by the per-line handlers: whitespace-only
(`!line.trim()`), not parseable as JSON (`JSON.parse` throws), or a
parsed JSON value. -/
inductive StreamLine where
  | blank : StreamLine
  | malformed : StreamLine
  | json (j : Json) : StreamLine

/-- Tool-result content as stored by the block-level branches:
`typeof block.content === 'string' ? block.content :
JSON.stringify(block.content)` (JS `undefined` when the field is
absent). -/
def blockToolResultContent (v : Option Json) : Option String :=
  match v with
  | some (.str s) => some s
  | some j => some j.stringify
  | none => none

/-- Segments contributed by one block of an `assistant` message
(`parseStreamSegments`, assistant branch loop body). -/
def assistantBlockSegments (block : Json) : List StreamSegment :=
  if fieldIsStr (block.getField "type") "text" && optTruthy (block.getField "text") then
    [.text ((block.getField "text").getD .null)]
  else if fieldIsStr (block.getField "type") "thinking" && optTruthy (block.getField "thinking") then
    [.thinking ((block.getField "thinking").getD .null)]
  else if fieldIsStr (block.getField "type") "tool_use" then
    [.toolUse (block.getField "name")
      (match block.getField "input" with
        | some i => if i.truthy then i else .obj []
        | none => .obj [])]
  else if fieldIsStr (block.getField "type") "tool_result" then
    [.toolResult (blockToolResultContent (block.getField "content"))
      (optTruthy (block.getField "is_error"))]
  else []

/-- Segments contributed by one block of a `user` message (only
`tool_result` blocks are kept). -/
def userBlockSegments (block : Json) : List StreamSegment :=
  if fieldIsStr (block.getField "type") "tool_result" then
    [.toolResult (blockToolResultContent (block.getField "content"))
      (optTruthy (block.getField "is_error"))]
  else []

/-- `parsed.message?.content` — `undefined` when `message` is absent or
not an object, or has no `content` field. -/
def messageContent (j : Json) : Option Json :=
  (j.getField "message").bind (fun m => m.getField "content")

/-- Iterating `for (const block of content)`: an array iterates its
elements; a string iterates 1-character strings (none of which has a
`type` field, so no segments result); other values throw, which the
enclosing `try`/`catch` turns into zero segments.  Either way a
non-array contributes no blocks. -/
def contentBlocks : Json → List Json
  | .arr elems => elems
  | _ => []

/-- `parseStreamSegments(line)` translated from the source: returns the
typed segments of one stream-json line, `[]` for blank lines, for
malformed JSON, and for well-formed JSON matching no known shape. -/
def parseStreamSegments : StreamLine → List StreamSegment
  | .blank => []
  | .malformed => []
  | .json parsed =>
    if fieldIsStr (parsed.getField "type") "assistant" && optTruthy (messageContent parsed) then
      (contentBlocks ((messageContent parsed).getD .null)).flatMap assistantBlockSegments
    else if fieldIsStr (parsed.getField "type") "user" && optTruthy (messageContent parsed) then
      (contentBlocks ((messageContent parsed).getD .null)).flatMap userBlockSegments
    else if fieldIsStr (parsed.getField "type") "tool_result" then
      [.toolResult
        (match parsed.getField "content" with
          | some (.str s) => some s
          | some j => some (if j.truthy then j.stringify else "")
          | none => some "")
        (optTruthy (parsed.getField "is_error"))]
    else if (parsed.getField "output").isSome then
      [.toolResult (some (jsToString ((parsed.getField "output").getD .null))) false]
    else if fieldIsStr (parsed.getField "type") "system" then
      [.system
        (if optTruthy (parsed.getField "subtype") then
          .str (jsToString ((parsed.getField "subtype").getD .null) ++ ": " ++
            (if optTruthy (parsed.getField "message") then
              jsToString ((parsed.getField "message").getD .null)
            else ""))
        else match parsed.getField "message" with
          | some m => if m.truthy then m else .str parsed.stringify
          | none => .str parsed.stringify)]
    else if fieldIsStr (parsed.getField "type") "result" then
      [.result (parsed.getField "duration_ms") (parsed.getField "usage")]
    else []

/-- the candidate text of one assistant block — `block.type === 'text'
&& block.text` guard, pushing `block.text` -/
def blockTextPayload (block : Json) : Option Json :=
  if fieldIsStr (block.getField "type") "text" && optTruthy (block.getField "text") then
    some ((block.getField "text").getD .null)
  else none

/-- `extractTextFromStreamLine(line)`: the `\n\n`-join of the truthy
`text` payloads of an assistant line, `null` otherwise. -/
def extractTextFromStreamLine : StreamLine → Option String
  | .blank => none
  | .malformed => none
  | .json parsed =>
    if fieldIsStr (parsed.getField "type") "assistant" && optTruthy (messageContent parsed) then
      let texts := (contentBlocks ((messageContent parsed).getD .null)).filterMap blockTextPayload
      if texts.isEmpty then none
      else some (String.intercalate "\n\n" (texts.map jsToString))
    else none

/-! ### stdout line decoder (`claude.stdout.on('data')` in `sendMessage`) -/

/-- `buffer.split('\n')` with a single-character separator: always
returns at least one (possibly empty) piece. -/
def splitNl : List Char → List (List Char)
  | [] => [[]]
  | c :: cs =>
    let r := splitNl cs
    if c = '\n' then [] :: r
    else (c :: r.headD []) :: r.tail

/-- One `data` event: `buffer += data; const lines = buffer.split('\n');
buffer = lines.pop() || ''` — state is (buffer, complete lines emitted
so far, oldest first). -/
def feedChunk (st : List Char × List (List Char)) (data : List Char) :
    List Char × List (List Char) :=
  let parts := splitNl (st.1 ++ data)
  (parts.getLastD [], st.2 ++ parts.dropLast)

/-- the decoder state after a whole sequence of `data` events -/
def runChunks (chunks : List (List Char)) : List Char × List (List Char) :=
  chunks.foldl feedChunk ([], [])

/-- whitespace as consumed by `line.trim()` -/
def jsWhitespace (c : Char) : Bool :=
  c = ' ' || c = '\t' || c = '\n' || c = '\r' || c = '\x0b' || c = '\x0c'

/-- truthiness of `buffer.trim()` -/
def hasNonWs (l : List Char) : Bool := l.any (fun c => !(jsWhitespace c))

/-- The complete line sequence a subprocess stream is decoded into:
every `\n`-terminated line in arrival order, plus — per the `close`
handler's `if (buffer.trim()) processLine(buffer)` — the buffered
un-terminated fragment flushed as one final line. -/
def decodeLines (chunks : List (List Char)) : List (List Char) :=
  let st := runChunks chunks
  if hasNonWs st.1 then st.2 ++ [st.1] else st.2

/-- character-at-a-time reference decoder used to prove the chunk laws -/
def feedChar (st : List Char × List (List Char)) (c : Char) :
    List Char × List (List Char) :=
  if c = '\n' then ([], st.2 ++ [st.1]) else (st.1 ++ [c], st.2)

/-! ### the per-turn accumulator and event stream (`processLine`,
`handleCompletion`) -/

/-- `fullResponse.endsWith('\n')` -/
def endsWithNl (s : String) : Bool := s.data.getLast? = some '\n'

/-- one text append to `fullResponse`: prefix a `\n\n` separator iff the
accumulator is non-empty and does not end in a newline -/
def sepAppend (acc t : String) : String :=
  (if acc ≠ "" && !endsWithNl acc then acc ++ "\n\n" else acc) ++ t

/-- the `fullResponse` update of `processLine` for one line — the
`if (text)` guard is JS truthiness, skipping both `null` and the empty
string (an assistant line whose only text payload coerces to `""`,
e.g. `text: []`, is skipped entirely) -/
def accumStep (acc : String) (l : StreamLine) : String :=
  match extractTextFromStreamLine l with
  | none => acc
  | some t => if t = "" then acc else sepAppend acc t

/-- the accumulated `fullResponse` after a turn's lines -/
def accumulate (lines : List StreamLine) : String := lines.foldl accumStep ""

/-- the `Text` segment payloads of one line, in order -/
def textPayloads (l : StreamLine) : List Json :=
  (parseStreamSegments l).filterMap
    (fun s => match s with | .text c => some c | _ => none)

/-- Claim-side: the text a line contributes to the accumulator — its
`Text` segment payloads joined with `\n\n` (`none` when the line has no
`Text` segment). -/
def joinedLineText (l : StreamLine) : Option String :=
  match textPayloads l with
  | [] => none
  | ts => some (String.intercalate "\n\n" (ts.map jsToString))

/-- a history entry as appended by the bridge -/
structure HistMessage where
  role : String
  content : String
  deriving DecidableEq

/-- the assistant append performed by `handleCompletion`:
`if (fullResponse) history.append({role:'assistant', content:fullResponse})` -/
def completionMessage (fullResponse : String) : Option HistMessage :=
  if fullResponse = "" then none else some ⟨"assistant", fullResponse⟩

/-- an event delivered to the turn's subscriber (`win.webContents`) -/
inductive TurnEvent where
  | streamChunk (text : String) : TurnEvent
  | streamSegment (seg : StreamSegment) : TurnEvent
  | streamError (msg : String) : TurnEvent
  | streamEnd (message : Option HistMessage) (fallbackText : Option String) : TurnEvent

/-- events sent by `processLine` for one line, given the accumulator
value before the line: when the extracted text is truthy (non-`null`
and non-empty, the `if (text)` guard), the conditional `\n\n` chunk and
the text chunk; then one `stream-segment` per parsed segment -/
def processLineEvents (acc : String) (l : StreamLine) : List TurnEvent :=
  (match extractTextFromStreamLine l with
   | none => []
   | some t =>
     if t = "" then []
     else
       (if acc ≠ "" && !endsWithNl acc then [TurnEvent.streamChunk "\n\n"] else [])
         ++ [TurnEvent.streamChunk t])
  ++ (parseStreamSegments l).map TurnEvent.streamSegment

/-- per-turn mutable state read by the completion finalizer -/
structure TurnState where
  completed : Bool
  fullResponse : String

/-- `handleCompletion`: a no-op when `completed` is already set;
otherwise marks completion, deregisters, appends the assistant message
when the response is non-empty, and emits exactly one `stream-end`
(`appendOk = false` is the history-append-throws path, which still
emits `stream-end` with `message:null, fallbackText: fullResponse || null`). -/
def handleCompletion (appendOk : Bool) (st : TurnState) : TurnState × List TurnEvent :=
  if st.completed then (st, [])
  else
    ({ st with completed := true },
     [match completionMessage st.fullResponse with
      | some m =>
        if appendOk then TurnEvent.streamEnd (some m) (some st.fullResponse)
        else TurnEvent.streamEnd none (some st.fullResponse)
      | none => TurnEvent.streamEnd none none])

/-- A child's externally visible behaviour: it either spawned and
produced stdout lines before closing (`ok`; `appendOk` says whether the
finalizer's history append succeeds), or it failed to spawn
(`spawnFail`, e.g. ENOENT).  Per the Node `child_process` contract the
`close` event is always emitted — after `exit`, or after `error` when
the child failed to spawn — so both shapes end in the `close` handler. -/
inductive ChildRun where
  | ok (lines : List StreamLine) (appendOk : Bool) : ChildRun
  | spawnFail (errMsg : String) : ChildRun

/-- the per-line loop of a turn, threading `fullResponse` -/
def runLines (acc : String) : List StreamLine → String × List TurnEvent
  | [] => (acc, [])
  | l :: ls =>
    let evs := processLineEvents acc l
    let r := runLines (accumStep acc l) ls
    (r.1, evs ++ r.2)

/-- does the second char list occur at the start of the first -/
def startsWithChars : List Char → List Char → Bool
  | _, [] => true
  | [], _ :: _ => false
  | c :: cs, d :: ds => c = d && startsWithChars cs ds

/-- substring occurrence on char lists -/
def containsChars : List Char → List Char → Bool
  | [], pat => pat.isEmpty
  | c :: cs, pat => startsWithChars (c :: cs) pat || containsChars cs pat

/-- `err.message.includes('ENOENT')` -/
def containsENOENT (s : String) : Bool :=
  containsChars s.data ['E', 'N', 'O', 'E', 'N', 'T']

/-- the `claude.on('error')` handler's user-facing message -/
def spawnErrorMessage (errMsg : String) : String :=
  if containsENOENT errMsg then "Claude CLI not found. Please install it first."
  else errMsg

/-- All events of one `sendMessage` turn as a function of the child's
behaviour.  On `ok`: per-line events then the `close` handler runs the
finalizer.  On `spawnFail`: the `error` handler emits the error event
(and deregisters), then `close` fires and the finalizer runs with an
empty accumulator. -/
def runTurn : ChildRun → List TurnEvent
  | .ok lines appendOk =>
    let r := runLines "" lines
    r.2 ++ (handleCompletion appendOk ⟨false, r.1⟩).2
  | .spawnFail errMsg =>
    [TurnEvent.streamError (spawnErrorMessage errMsg)]
      ++ (handleCompletion true ⟨false, ""⟩).2

/-- recognizer for `stream-end` events -/
def isStreamEnd : TurnEvent → Bool
  | .streamEnd _ _ => true
  | _ => false

def countStreamEnd (evs : List TurnEvent) : Nat := (evs.filter isStreamEnd).length

/-! ### the active-process registry (`activeProcesses`) as a labelled
transition system -/

/-- a spawned child process: its pid, owning thread, and liveness -/
structure ProcInfo where
  pid : Nat
  thread : String
  live : Bool

/-- registry state: every child spawned so far, the
`activeProcesses` map, and a fresh-pid source -/
structure SupState where
  procs : List ProcInfo
  active : String → Option Nat
  next : Nat

/-- pointwise map update -/
def updActive (f : String → Option Nat) (t : String) (v : Option Nat) :
    String → Option Nat :=
  fun t2 => if t2 = t then v else f t2

/-- a child process ends (its OS exit; e.g. after SIGTERM from
`killProcess`, or on its own) -/
def markDead (procs : List ProcInfo) (pid : Nat) : List ProcInfo :=
  procs.map (fun p => if p.pid = pid then { p with live := false } else p)

/-- One supervisor step touching the registry, exactly as in the
source: `sendMessage` registers the child it spawned
(`activeProcesses.set(threadName, claude)`, possibly overwriting);
children may exit at any time; deregistration happens only in
`handleCompletion`, in the `claude.on('error')` handler and in
`killProcess` (which also signals the child; its exit is a later
`childExit` step).  `injectMessage` is the composition
`kill` · `spawn`; concurrent turns interleave these steps arbitrarily. -/
inductive SupStep : SupState → SupState → Prop
  | spawn (s : SupState) (t : String) :
      SupStep s ⟨s.procs ++ [⟨s.next, t, true⟩], updActive s.active t (some s.next), s.next + 1⟩
  | childExit (s : SupState) (pid : Nat) :
      SupStep s ⟨markDead s.procs pid, s.active, s.next⟩
  | finalize (s : SupState) (t : String) :
      SupStep s ⟨s.procs, updActive s.active t none, s.next⟩
  | spawnError (s : SupState) (t : String) :
      SupStep s ⟨s.procs, updActive s.active t none, s.next⟩
  | kill (s : SupState) (t : String) :
      SupStep s ⟨s.procs, updActive s.active t none, s.next⟩

/-- the state at bridge construction: no children, empty map -/
def initSup : SupState := ⟨[], fun _ => none, 0⟩

/-- reachable registry states -/
def SupReachable (s : SupState) : Prop := Relation.ReflTransGen SupStep initSup s

/-- the live subprocesses currently registered against thread `t` -/
def registeredLive (s : SupState) (t : String) : List ProcInfo :=
  s.procs.filter (fun p => p.live && p.thread == t && s.active t == some p.pid)

/-- auxiliary inductive invariant: pids are below the fresh counter and
pairwise distinct -/
def pidsOk (s : SupState) : Prop :=
  (∀ p ∈ s.procs, p.pid < s.next) ∧ (s.procs.map (fun p => p.pid)).Nodup

/-! ### context assembly (`truncateToTokens`, `formatRecentContext`) -/

def RECENT_MSG_MAX_TOKENS : Nat := 500

/-- truncate message content to a token budget: character budget is
`maxTokens * 3`, with a terminal `... [truncated]` marker -/
def truncateToTokens (content : String) (maxTokens : Nat) (est : String → Nat) : String :=
  if est content ≤ maxTokens then content
  else content.take (maxTokens * 3) ++ "... [truncated]"

/-- a recent-history message as consumed by `formatRecentContext` -/
structure RecentMsg where
  role : String
  content : String

def recentHeader : String := "\nRECENT CONVERSATION (last few messages):\n---\n"

def recentFooter : String := "---\n"

/-- one formatted line of the recent block -/
def recentLine (est : String → Nat) (m : RecentMsg) : String :=
  "[" ++ (if m.role = "user" then "User" else "Assistant") ++ "]: " ++
    truncateToTokens m.content RECENT_MSG_MAX_TOKENS est ++ "\n"

/-- The newest-to-oldest prepending loop of `formatRecentContext`,
given the formatted lines newest-first: the loop guard requires
`remaining > 0`, and a line whose cost exceeds the remaining budget
`break`s the loop. -/
def keptNewestFirst (est : String → Nat) : List String → Nat → List String
  | [], _ => []
  | l :: ls, rem =>
    if rem = 0 then []
    else if est l > rem then []
    else l :: keptNewestFirst est ls (rem - est l)

/-- `formatRecentContext(recentMessages, budgetTokens, estimateTokensFn)` -/
def formatRecentContext (recent : List RecentMsg) (budget : Nat) (est : String → Nat) : String :=
  if recent.isEmpty || budget = 0 then ""
  else
    let overhead := est (recentHeader ++ recentFooter)
    if budget ≤ overhead then ""
    else
      let remaining := budget - overhead
      let lines := recent.map (recentLine est)
      let kept := (keptNewestFirst est lines.reverse remaining).reverse
      if kept.isEmpty then "" else recentHeader ++ String.join kept ++ recentFooter

/-- total token cost of a list of formatted lines -/
def linesCost (est : String → Nat) (ls : List String) : Nat := (ls.map est).sum

/-- Claim-side: the kept lines are the longest suffix of the formatted
lines (oldest-first) whose total cost fits the remaining budget —
"stop at the first over-budget line; do not skip to smaller later
messages" — emitted in original (oldest-first) order. -/
def longestFittingSuffix (est : String → Nat) : List String → Nat → List String
  | [], _ => []
  | l :: ls, rem =>
    if linesCost est (l :: ls) ≤ rem then l :: ls
    else longestFittingSuffix est ls rem

/-- Claim-side rendering of the recent-conversation block. -/
def claimFormatRecentContext (recent : List RecentMsg) (budget : Nat) (est : String → Nat) : String :=
  if recent.isEmpty || budget = 0 then ""
  else
    let overhead := est (recentHeader ++ recentFooter)
    if budget ≤ overhead then ""
    else
      let kept := longestFittingSuffix est (recent.map (recentLine est)) (budget - overhead)
      if kept.isEmpty then "" else recentHeader ++ String.join kept ++ recentFooter

/-! ### `injectMessage` (agent router) -/

/-- an action `injectMessage` performs on the bridge -/
inductive BridgeAction where
  | ensureThread (name : String) : BridgeAction
  | killProc (name : String) : BridgeAction
  | wait (ms : Nat) : BridgeAction
  | callSendMessage (threadName messageText : String) : BridgeAction
  deriving DecidableEq

/-- `injectMessage(threadName, messageText, senderName, win)` as the
sequence of actions it performs; `active` is the
`activeProcesses.has(threadName)` test at entry.  The final
`callSendMessage`'s promise is returned to the caller un-awaited. -/
def injectMessage (active : String → Bool) (threadName messageText senderName : String) :
    List BridgeAction :=
  [.ensureThread threadName]
  ++ (if active threadName then [.killProc threadName, .wait 100] else [])
  ++ [.callSendMessage threadName
       ("[From agent \"" ++ senderName ++ "\"]:\n" ++ messageText ++
        "\n\n(Reply using send_to_agent(\"" ++ senderName ++
        "\", your_response) to respond directly. Be concise and task-focused — no pleasantries or sign-offs.)")]

/-- Claim-side: the injected text as the claim words it — the
`[From agent "<sender>"]:` line, a newline, the body, a blank line,
then the fixed reply instruction naming `send_to_agent("<sender>", …)`. -/
def claimInjectedText (senderName body : String) : String :=
  "[From agent \"" ++ senderName ++ "\"]:" ++ "\n" ++ body ++ "\n\n" ++
  "(Reply using send_to_agent(\"" ++ senderName ++
  "\", your_response) to respond directly. Be concise and task-focused — no pleasantries or sign-offs.)"

/-! ### HTTP control API (`startHttpApi`, `main.js`) -/

/-- one window's bridge as seen by the HTTP handlers: its id, whether
`BrowserWindow.fromId` still resolves it, and its thread names -/
structure WindowEntry where
  winId : Nat
  windowAlive : Bool
  threads : List String

/-- a JSON response of the agents API, status plus the body fields used -/
structure ApiResponse where
  status : Nat
  delivered : Bool
  error : Option String
  target : Option String
  available : Option (List String)
  deriving DecidableEq

/-- side effects the handler dispatches without awaiting -/
inductive ApiAction where
  | fireInjectMessage (target message sender : String) : ApiAction
  | notifyUnread (target : String) : ApiAction
  deriving DecidableEq

/-- `POST /api/agents/:name/message`: validate the body, find the first
bridge owning the thread, 404 (with the available agent list) when no
live owner exists, otherwise dispatch `injectMessage` fire-and-forget
and answer `delivered:true` immediately.  The response is computed
before — and independently of — the injected turn's outcome. -/
def postAgentMessage (ws : List WindowEntry) (name message sender : String) :
    ApiResponse × List ApiAction :=
  if message = "" || sender = "" then
    (⟨400, false, some "Missing message or sender", none, none⟩, [])
  else
    match ws.find? (fun w => w.threads.contains name) with
    | some w =>
      if w.windowAlive then
        (⟨200, true, none, some name, none⟩,
         [.fireInjectMessage name message sender, .notifyUnread name])
      else
        (⟨404, false, some ("Agent \"" ++ name ++ "\" not found"), none,
          some (ws.flatMap (fun w2 => w2.threads))⟩, [])
    | none =>
      (⟨404, false, some ("Agent \"" ++ name ++ "\" not found"), none,
        some (ws.flatMap (fun w2 => w2.threads))⟩, [])

/-! ### `getActiveAgents` / `getOrCreateThread` -/

/-- the bridge state consulted by `getActiveAgents`: the thread map's
keys (insertion order) and the `activeProcesses.has` test -/
structure BridgeView where
  threads : List String
  hasProcess : String → Bool

/-- `getActiveAgents()`: one `{name, status}` record per known thread -/
def getActiveAgents (b : BridgeView) : List (String × String) :=
  b.threads.map (fun t => (t, if b.hasProcess t then "streaming" else "idle"))

/-- the thread-map effect of `getOrCreateThread`: registers the name on
first reference; never touches `activeProcesses` -/
def getOrCreateThread (b : BridgeView) (name : String) : BridgeView :=
  if b.threads.contains name then b else { b with threads := b.threads ++ [name] }

/-! ### the front half of `sendMessage` (C10) -/

/-- an attachment as passed from the renderer -/
structure JsAttachment where
  name : String
  path : String
  type : String
  readable : Bool

/-- the `[Attached …]` reference lines: non-image attachments always, a
fallback line for image attachments whose file read fails (readable
images become base64 blocks instead, never reference lines) -/
def fileRefs (atts : List JsAttachment) : List String :=
  atts.filterMap (fun a =>
    if a.type = "image" && a.path ≠ "" then
      if a.readable then none
      else some ("[Attached image (unreadable): " ++ a.path ++ "]")
    else some ("[Attached file: " ++ a.path ++ "]"))

/-- `messageForClaude` after the attachment-reference step -/
def withFileRefs (messageText : String) (atts : List JsAttachment) : String :=
  let refs := fileRefs atts
  if refs.isEmpty then messageText
  else if messageText ≠ "" then messageText ++ "\n\n" ++ String.intercalate "\n" refs
  else String.intercalate "\n" refs

/-- outcome of the front half of `sendMessage`: the text handed to the
spawned subprocess and the user Message appended to history;
`externalize` abstracts `shouldExternalizeUserInput` /
`externalizeUserInput` (`some replacement` when the predicate fires,
the replacement being the `[STORED:<id>]` rewrite) -/
structure SendPrep where
  messageForClaude : String
  appendedRole : String
  appendedContent : String

/-- the front half of `sendMessage(threadName, messageText, win,
attachments)`: builds `messageForClaude` (reference lines, then
externalization) and appends the user message with
`content: messageText` -/
def prepareSend (messageText : String) (atts : List JsAttachment)
    (externalize : String → Option String) : SendPrep :=
  let m0 := withFileRefs messageText atts
  let m1 := match externalize m0 with
    | some replacement => replacement
    | none => m0
  { messageForClaude := m1, appendedRole := "user", appendedContent := messageText }


/-! ### claim-side definitions for the decoder event mapping -/

/-- an assistant stream line `{type:"assistant", message:{content:[blocks…]}}` -/
def mkAssistantLine (blocks : List Json) : Json :=
  .obj [("type", .str "assistant"), ("message", .obj [("content", .arr blocks)])]

/-- Claim-side per-block event mapping (amended): `text`→Text and
`thinking`→Thinking only when the payload is truthy (in particular
non-empty when a string); `tool_use`→ToolUse and `tool_result`→ToolResult
always; blocks of any other shape contribute no segment. -/
def claimBlockSegment (block : Json) : List StreamSegment :=
  if fieldIsStr (block.getField "type") "text" then
    if optTruthy (block.getField "text") then [.text ((block.getField "text").getD .null)]
    else []
  else if fieldIsStr (block.getField "type") "thinking" then
    if optTruthy (block.getField "thinking") then [.thinking ((block.getField "thinking").getD .null)]
    else []
  else if fieldIsStr (block.getField "type") "tool_use" then
    [.toolUse (block.getField "name")
      (match block.getField "input" with
        | some i => if i.truthy then i else .obj []
        | none => .obj [])]
  else if fieldIsStr (block.getField "type") "tool_result" then
    [.toolResult (blockToolResultContent (block.getField "content"))
      (optTruthy (block.getField "is_error"))]
  else []

/-- a parsed line matches one of the known shapes of the event table -/
def matchesKnownShape (j : Json) : Bool :=
  (fieldIsStr (j.getField "type") "assistant" && optTruthy (messageContent j)) ||
  (fieldIsStr (j.getField "type") "user" && optTruthy (messageContent j)) ||
  fieldIsStr (j.getField "type") "tool_result" ||
  (j.getField "output").isSome ||
  fieldIsStr (j.getField "type") "system" ||
  fieldIsStr (j.getField "type") "result"


/-- Original-claim accumulation for C3: fold the conditional `\n\n`
separator over the individual Text segment payloads of the whole
stream. -/
def claimSegmentConcat (lines : List StreamLine) : String :=
  ((lines.flatMap textPayloads).map jsToString).foldl sepAppend ""


/-! ## Theorems -/

/-- C6: `inject_message(target, body, sender)` first ensures the target
thread exists; kills the live subprocess and waits ≈100 ms exactly when
one is registered, proceeding regardless; and then calls `send_message`
with the injected text exactly equal to `[From agent "<sender>"]:`,
newline, the body, a blank line, and the fixed reply instruction naming
`send_to_agent("<sender>", …)`, returning its promise to the caller
un-awaited. -/
theorem injectMessage_spec (active : String → Bool) (target body sender : String) :
    injectMessage active target body sender =
      [BridgeAction.ensureThread target]
      ++ (if active target then [BridgeAction.killProc target, BridgeAction.wait 100] else [])
      ++ [BridgeAction.callSendMessage target (claimInjectedText sender body)] := by
  unfold injectMessage claimInjectedText
  cases h : active target <;> simp [h, String.append_assoc]

/-- C10: for every call to `sendMessage`, the user Message appended to
history has content exactly the original `messageText` (and role
`user`): neither the `[Attached file: …]` / `[Attached image
(unreadable): …]` reference lines nor the `[STORED:<id>]`
externalization rewriting alter the stored content — they feed only
`messageForClaude`. -/
theorem prepareSend_history_content (messageText : String) (atts : List JsAttachment)
    (externalize : String → Option String) :
    (prepareSend messageText atts externalize).appendedContent = messageText ∧
    (prepareSend messageText atts externalize).appendedRole = "user" :=
  ⟨rfl, rfl⟩

/-- C9: `getActiveAgents` (served as `GET /api/agents`) returns `(n, s)`
exactly for the known threads `n`, with `s = "streaming"` iff a
subprocess is registered for `n` and `s = "idle"` otherwise; in
particular a thread created fresh (no registered process) and then
listed appears with status `idle`. -/
theorem getActiveAgents_spec (b : BridgeView) (n : String) (s : String) :
    ((n, s) ∈ getActiveAgents b ↔
      n ∈ b.threads ∧ s = (if b.hasProcess n then "streaming" else "idle")) ∧
    (b.hasProcess n = false → (n, "idle") ∈ getActiveAgents (getOrCreateThread b n)) := by
  constructor
  · constructor
    · intro h
      rcases List.mem_map.mp h with ⟨t, ht, heq⟩
      obtain ⟨rfl, rfl⟩ := Prod.mk.injEq .. ▸ heq
      exact ⟨ht, rfl⟩
    · rintro ⟨hn, rfl⟩
      exact List.mem_map.mpr ⟨n, hn, rfl⟩
  · intro hp
    have hmem : n ∈ (getOrCreateThread b n).threads := by
      unfold getOrCreateThread
      by_cases hc : n ∈ b.threads <;> simp [hc]
    have hproc : (getOrCreateThread b n).hasProcess = b.hasProcess := by
      unfold getOrCreateThread
      by_cases hc : n ∈ b.threads <;> simp [hc]
    refine List.mem_map.mpr ⟨n, hmem, ?_⟩
    rw [hproc, hp]
    simp

/-- C9 witness: a fresh thread on an empty bridge is listed `idle`. -/
theorem getActiveAgents_spec_witness :
    ("t1", "idle") ∈ getActiveAgents (getOrCreateThread ⟨[], fun _ => false⟩ "t1") :=
  (getActiveAgents_spec ⟨[], fun _ => false⟩ "t1" "idle").2 rfl

/-- C7: `POST /api/agents/<name>/message` with a non-empty body replies
`200 {delivered:true, target}` as soon as a live owner bridge is found,
dispatching `injectMessage` fire-and-forget (the response does not
depend on the injected turn); and when no bridge knows the target it
replies `404 {delivered:false, error:"Agent \"<name>\" not found",
available}` where `available` collects the currently known agent
names. -/
theorem postAgentMessage_spec (ws : List WindowEntry) (name message sender : String)
    (hm : message ≠ "") (hs : sender ≠ "") :
    (∀ w, ws.find? (fun w2 => w2.threads.contains name) = some w → w.windowAlive = true →
      postAgentMessage ws name message sender =
        (⟨200, true, none, some name, none⟩,
         [ApiAction.fireInjectMessage name message sender, ApiAction.notifyUnread name])) ∧
    ((∀ w ∈ ws, name ∉ w.threads) →
      postAgentMessage ws name message sender =
        (⟨404, false, some ("Agent \"" ++ name ++ "\" not found"), none,
          some (ws.flatMap (fun w => w.threads))⟩, [])) := by
  constructor
  · intro w hfind halive
    unfold postAgentMessage
    rw [if_neg (by simp [hm, hs])]
    rw [hfind]
    simp [halive]
  · intro hnone
    have hfind : ws.find? (fun w2 => w2.threads.contains name) = none := by
      rw [List.find?_eq_none]
      intro w hw
      simpa using hnone w hw
    unfold postAgentMessage
    rw [if_neg (by simp [hm, hs])]
    rw [hfind]

/-- C7 witness: concrete success and unknown-target responses. -/
theorem postAgentMessage_spec_witness :
    (postAgentMessage [⟨1, true, ["t1", "t2"]⟩] "t1" "hi" "t2" =
      (⟨200, true, none, some "t1", none⟩,
       [ApiAction.fireInjectMessage "t1" "hi" "t2", ApiAction.notifyUnread "t1"])) ∧
    (postAgentMessage [⟨1, true, ["t1", "t2"]⟩] "ghost" "hi" "t1" =
      (⟨404, false, some ("Agent \"" ++ "ghost" ++ "\" not found"), none,
        some ["t1", "t2"]⟩, [])) := by
  constructor
  · exact (postAgentMessage_spec [⟨1, true, ["t1", "t2"]⟩] "t1" "hi" "t2"
      (by decide) (by decide)).1 ⟨1, true, ["t1", "t2"]⟩ rfl rfl
  · exact (postAgentMessage_spec [⟨1, true, ["t1", "t2"]⟩] "ghost" "hi" "t1"
      (by decide) (by decide)).2 (by decide)

/-- A field strictly equal to one string literal is not strictly equal
to a different one. -/
theorem fieldIsStr_unique {v : Option Json} {a b : String}
    (h : fieldIsStr v a = true) (hab : a ≠ b) : fieldIsStr v b = false := by
  unfold fieldIsStr at h ⊢
  rcases v with _ | j
  · simp at h
  · cases j <;> simp_all

/-- Each assistant block produces per the amended mapping exactly what
the source's loop body produces. -/
theorem claimBlockSegment_eq (block : Json) :
    claimBlockSegment block = assistantBlockSegments block := by
  unfold claimBlockSegment assistantBlockSegments
  by_cases h1 : fieldIsStr (block.getField "type") "text"
  · have hth := fieldIsStr_unique h1 (by decide : "text" ≠ "thinking")
    have htu := fieldIsStr_unique h1 (by decide : "text" ≠ "tool_use")
    have htr := fieldIsStr_unique h1 (by decide : "text" ≠ "tool_result")
    by_cases h2 : optTruthy (block.getField "text") <;> simp [h1, h2, hth, htu, htr]
  · by_cases h3 : fieldIsStr (block.getField "type") "thinking"
    · have htu := fieldIsStr_unique h3 (by decide : "thinking" ≠ "tool_use")
      have htr := fieldIsStr_unique h3 (by decide : "thinking" ≠ "tool_result")
      by_cases h4 : optTruthy (block.getField "thinking") <;> simp [h1, h3, h4, htu, htr]
    · simp [h1, h3]

/-- C4 (amended): an assistant line yields, in order, the per-block
segments of the amended event mapping (`text`→Text / `thinking`→Thinking
when the payload is truthy, `tool_use`→ToolUse and
`tool_result`→ToolResult always, nothing otherwise); non-string
tool-result content is serialized with `JSON.stringify`; malformed or
blank lines and well-formed lines matching no known shape yield zero
segments. -/
theorem parseStreamSegments_spec :
    (∀ blocks : List Json,
      parseStreamSegments (.json (mkAssistantLine blocks)) = blocks.flatMap claimBlockSegment) ∧
    (∀ v : Json, (∀ s, v ≠ .str s) → blockToolResultContent (some v) = some v.stringify) ∧
    (parseStreamSegments .malformed = [] ∧ parseStreamSegments .blank = []) ∧
    (∀ j : Json, matchesKnownShape j = false → parseStreamSegments (.json j) = []) := by
  refine ⟨?_, ?_, ⟨rfl, rfl⟩, ?_⟩
  · intro blocks
    have h1 : parseStreamSegments (.json (mkAssistantLine blocks)) =
        blocks.flatMap assistantBlockSegments := by
      simp [parseStreamSegments, mkAssistantLine, Json.getField, messageContent,
        fieldIsStr, optTruthy, Json.truthy, contentBlocks, List.find?]
    rw [h1, funext claimBlockSegment_eq]
  · intro v hv
    unfold blockToolResultContent
    cases v with
    | str s => exact absurd rfl (hv s)
    | _ => rfl
  · intro j hj
    simp only [matchesKnownShape, Bool.or_eq_false_iff] at hj
    obtain ⟨⟨⟨⟨⟨ha, hu⟩, ht⟩, ho⟩, hsys⟩, hres⟩ := hj
    have ho2 : j.getField "output" = none := by
      cases hgf : j.getField "output" with
      | none => rfl
      | some v => rw [hgf] at ho; simp at ho
    simp [parseStreamSegments, ha, hu, ht, hsys, hres, ho2]

/-- C4 counterexample: a well-formed assistant line containing exactly
one block — a `text` block with empty text — yields zero segments,
refuting "one segment per block". -/
theorem parseStreamSegments_empty_text_block :
    parseStreamSegments
        (.json (mkAssistantLine [Json.obj [("type", .str "text"), ("text", .str "")]])) = []
    ∧ [Json.obj [("type", .str "text"), ("text", .str "")]].length = 1 := by
  constructor
  · rfl
  · rfl

/-- C4 witness: the amended mapping, serialization and unknown-shape
clauses at concrete inputs. -/
theorem parseStreamSegments_spec_witness :
    parseStreamSegments
        (.json (mkAssistantLine [Json.obj [("type", .str "tool_use"), ("name", .str "grep")]])) =
      [Json.obj [("type", .str "tool_use"), ("name", .str "grep")]].flatMap claimBlockSegment ∧
    blockToolResultContent (some (Json.num 5)) = some (Json.num 5).stringify ∧
    parseStreamSegments (.json (Json.obj [("hello", .str "x")])) = [] :=
  ⟨parseStreamSegments_spec.1 [Json.obj [("type", .str "tool_use"), ("name", .str "grep")]],
   parseStreamSegments_spec.2.1 (Json.num 5) (fun s h => Json.noConfusion h),
   parseStreamSegments_spec.2.2.2 (Json.obj [("hello", .str "x")]) rfl⟩

/-- `String(...)` of a JSON string is the string itself (equation lemma
of the well-founded definition). -/
theorem jsToString_str (s : String) : jsToString (.str s) = s := by
  simp [jsToString]

/-- `filterMap` distributes over `flatMap`. -/
theorem filterMap_flatMap {α β γ : Type} (l : List α) (f : α → List β) (g : β → Option γ) :
    (l.flatMap f).filterMap g = l.flatMap (fun a => (f a).filterMap g) := by
  induction l with
  | nil => rfl
  | cons a as ih => simp [List.flatMap_cons, List.filterMap_append, ih]

/-- Per assistant block, the Text segments are exactly the optional
text payload. -/
theorem assistantBlockSegments_text (block : Json) :
    (assistantBlockSegments block).filterMap
      (fun s => match s with | .text c => some c | _ => none) =
    (blockTextPayload block).toList := by
  unfold assistantBlockSegments blockTextPayload
  split_ifs <;> simp_all

/-- A user block contributes no Text segment. -/
theorem userBlockSegments_no_text (block : Json) :
    (userBlockSegments block).filterMap
      (fun s => match s with | .text c => some c | _ => none) = [] := by
  unfold userBlockSegments
  split_ifs <;> simp

/-- On an assistant line the Text payloads are the blocks' text
payloads, in order. -/
theorem textPayloads_json_assistant (parsed : Json)
    (h : (fieldIsStr (parsed.getField "type") "assistant"
          && optTruthy (messageContent parsed)) = true) :
    textPayloads (.json parsed) =
      (contentBlocks ((messageContent parsed).getD .null)).filterMap blockTextPayload := by
  unfold textPayloads parseStreamSegments
  simp only [h, if_true, filterMap_flatMap, assistantBlockSegments_text]
  induction contentBlocks ((messageContent parsed).getD .null) with
  | nil => rfl
  | cons b bs ih =>
    simp only [List.flatMap_cons, List.filterMap_cons, ih]
    cases blockTextPayload b <;> simp

/-- Lines other than assistant lines carry no Text segment. -/
theorem textPayloads_json_other (parsed : Json)
    (h : (fieldIsStr (parsed.getField "type") "assistant"
          && optTruthy (messageContent parsed)) = false) :
    textPayloads (.json parsed) = [] := by
  unfold textPayloads parseStreamSegments
  simp only [h, Bool.false_eq_true, if_false]
  split_ifs <;>
    simp [filterMap_flatMap, userBlockSegments_no_text, List.flatMap]

/-- `extractTextFromStreamLine` equals the `\n\n`-join of the line's
Text segment payloads. -/
theorem extractText_eq_joined (l : StreamLine) :
    extractTextFromStreamLine l = joinedLineText l := by
  cases l with
  | blank => rfl
  | malformed => rfl
  | json parsed =>
    by_cases h : (fieldIsStr (parsed.getField "type") "assistant"
        && optTruthy (messageContent parsed)) = true
    · unfold extractTextFromStreamLine joinedLineText
      rw [textPayloads_json_assistant parsed h]
      simp only [h, if_true]
      cases hb : (contentBlocks ((messageContent parsed).getD .null)).filterMap blockTextPayload with
      | nil => simp
      | cons t ts => simp
    · have hf := eq_false_of_ne_true h
      unfold extractTextFromStreamLine joinedLineText
      rw [textPayloads_json_other parsed hf]
      simp [hf]

/-- The per-line fold of `processLine`'s accumulator updates equals the
fold of `sepAppend` over the extracted per-line texts that pass the
`if (text)` truthiness guard (non-`null` and non-empty). -/
theorem foldl_accumStep (lines : List StreamLine) (acc : String) :
    lines.foldl accumStep acc =
      ((lines.filterMap extractTextFromStreamLine).filter (fun t => t ≠ "")).foldl
        sepAppend acc := by
  induction lines generalizing acc with
  | nil => rfl
  | cons l ls ih =>
    cases he : extractTextFromStreamLine l with
    | none => simp [List.foldl_cons, accumStep, he, List.filterMap_cons, ih]
    | some t =>
      by_cases ht : t = ""
      · subst ht
        simp [List.foldl_cons, accumStep, he, List.filterMap_cons, ih]
      · simp [List.foldl_cons, accumStep, he, ht, List.filterMap_cons, ih]

/-- C3 (amended): for every completed turn, `fullResponse` — and hence
the content of the assistant Message appended when it is non-empty —
equals the fold of the conditional `\n\n` separator over the *per-line*
texts, where each line's text is its Text segment payloads joined with
an unconditional `\n\n` (the within-line join does not consult the
accumulator), lines whose joined text is empty being skipped by the
`if (text)` truthiness guard. -/
theorem accumulate_spec :
    (∀ lines, accumulate lines =
      ((lines.filterMap joinedLineText).filter (fun t => t ≠ "")).foldl sepAppend "") ∧
    (∀ lines, accumulate lines ≠ "" →
      completionMessage (accumulate lines) = some ⟨"assistant", accumulate lines⟩) := by
  constructor
  · intro lines
    unfold accumulate
    rw [foldl_accumStep, funext extractText_eq_joined]
  · intro lines h
    simp [completionMessage, h]

/-- C3 witness: one single-text-block line ("Hello.") accumulates to
"Hello." and is appended as the assistant message. -/
theorem accumulate_spec_witness :
    accumulate [.json (mkAssistantLine [Json.obj [("type", .str "text"), ("text", .str "Hello.")]])]
      = "Hello." ∧
    completionMessage
      (accumulate [.json (mkAssistantLine [Json.obj [("type", .str "text"), ("text", .str "Hello.")]])])
      = some ⟨"assistant", accumulate [.json (mkAssistantLine [Json.obj [("type", .str "text"), ("text", .str "Hello.")]])]⟩ := by
  have h1 : accumulate
      [.json (mkAssistantLine [Json.obj [("type", .str "text"), ("text", .str "Hello.")]])]
      = "Hello." := by
    simp [accumulate, accumStep, extractTextFromStreamLine, mkAssistantLine, Json.getField,
      messageContent, fieldIsStr, optTruthy, Json.truthy, contentBlocks, blockTextPayload,
      jsToString_str, sepAppend, endsWithNl, List.find?, String.intercalate]
    decide
  refine ⟨h1, accumulate_spec.2 _ ?_⟩
  rw [h1]
  decide

/-- C3 counterexample: an assistant line with Text blocks `"a\n"` and
`"b"` accumulates to `"a\n\n\nb"` (the within-line join inserts `\n\n`
unconditionally), while the claimed per-segment separator rule — no
separator after a trailing newline — yields `"a\nb"`. -/
theorem accumulate_counterexample :
    accumulate [.json (mkAssistantLine
      [Json.obj [("type", .str "text"), ("text", .str "a\n")],
       Json.obj [("type", .str "text"), ("text", .str "b")]])] = "a\n\n\nb" ∧
    claimSegmentConcat [.json (mkAssistantLine
      [Json.obj [("type", .str "text"), ("text", .str "a\n")],
       Json.obj [("type", .str "text"), ("text", .str "b")]])] = "a\nb" ∧
    ("a\n\n\nb" : String) ≠ "a\nb" := by
  refine ⟨?_, ?_, by decide⟩
  · simp [accumulate, accumStep, extractTextFromStreamLine, mkAssistantLine, Json.getField,
      messageContent, fieldIsStr, optTruthy, Json.truthy, contentBlocks, blockTextPayload,
      jsToString_str, sepAppend, endsWithNl, List.find?, String.intercalate]
    try decide
  · simp [claimSegmentConcat, textPayloads, parseStreamSegments, assistantBlockSegments,
      mkAssistantLine, Json.getField, messageContent, fieldIsStr, optTruthy, Json.truthy,
      contentBlocks, blockToolResultContent, jsToString_str, sepAppend, endsWithNl, List.find?]
    try decide


theorem linesCost_cons (est : String → Nat) (l : String) (ls : List String) :
    linesCost est (l :: ls) = est l + linesCost est ls := by
  simp [linesCost]

theorem keptNewestFirst_cons (est : String → Nat) (l : String) (ls : List String) (rem : Nat) :
    keptNewestFirst est (l :: ls) rem =
      if rem = 0 then []
      else if est l > rem then []
      else l :: keptNewestFirst est ls (rem - est l) := rfl

theorem longestFittingSuffix_cons (est : String → Nat) (l : String) (ls : List String) (rem : Nat) :
    longestFittingSuffix est (l :: ls) rem =
      if linesCost est (l :: ls) ≤ rem then l :: ls
      else longestFittingSuffix est ls rem := rfl

theorem linesCost_reverse (est : String → Nat) (ls : List String) :
    linesCost est ls.reverse = linesCost est ls := by
  unfold linesCost
  rw [List.map_reverse, List.sum_reverse]

theorem keptNewestFirst_full (est : String → Nat) (ls : List String) (rem : Nat)
    (hpos : ∀ l ∈ ls, 1 ≤ est l) (hfit : linesCost est ls ≤ rem) :
    keptNewestFirst est ls rem = ls := by
  induction ls generalizing rem with
  | nil => rfl
  | cons l ls' ih =>
    have hl := hpos l (List.mem_cons_self l ls')
    rw [linesCost_cons] at hfit
    rw [keptNewestFirst_cons]
    rw [if_neg (by omega), if_neg (by omega)]
    rw [ih (rem - est l) (fun x hx => hpos x (List.mem_cons_of_mem l hx)) (by omega)]

theorem keptNewestFirst_append (est : String → Nat) (ls ms : List String) (rem : Nat)
    (hpos : ∀ l ∈ ls, 1 ≤ est l) :
    keptNewestFirst est (ls ++ ms) rem =
      keptNewestFirst est ls rem ++
        (if linesCost est ls ≤ rem then keptNewestFirst est ms (rem - linesCost est ls)
         else []) := by
  induction ls generalizing rem with
  | nil => simp [keptNewestFirst, linesCost]
  | cons l ls' ih =>
    have hl := hpos l (List.mem_cons_self l ls')
    by_cases h0 : rem = 0
    · subst h0
      rw [if_neg (by rw [linesCost_cons]; omega)]
      rw [List.cons_append, keptNewestFirst_cons, keptNewestFirst_cons]
      simp
    · by_cases hover : est l > rem
      · rw [if_neg (by rw [linesCost_cons]; omega)]
        rw [List.cons_append, keptNewestFirst_cons, keptNewestFirst_cons]
        simp [h0, hover]
      · have hle : est l ≤ rem := by omega
        have hrec := ih (rem - est l) (fun x hx => hpos x (List.mem_cons_of_mem l hx))
        rw [List.cons_append, keptNewestFirst_cons, keptNewestFirst_cons]
        rw [if_neg h0, if_neg (by omega), if_neg h0, if_neg (by omega), hrec]
        rw [linesCost_cons]
        by_cases hfit : linesCost est ls' ≤ rem - est l
        · rw [if_pos hfit, if_pos (by omega), List.cons_append]
          rw [Nat.sub_sub]
        · rw [if_neg hfit, if_neg (by omega), List.cons_append]

theorem keptNewestFirst_eq_suffix (est : String → Nat) (ls : List String) (rem : Nat)
    (hpos : ∀ l ∈ ls, 1 ≤ est l) :
    (keptNewestFirst est ls.reverse rem).reverse = longestFittingSuffix est ls rem := by
  induction ls generalizing rem with
  | nil => rfl
  | cons l rest ih =>
    have hl := hpos l (List.mem_cons_self l rest)
    have hposrest : ∀ x ∈ rest, 1 ≤ est x := fun x hx => hpos x (List.mem_cons_of_mem l hx)
    have hposrev : ∀ x ∈ rest.reverse, 1 ≤ est x := by
      intro x hx
      exact hposrest x (List.mem_reverse.mp hx)
    have happ := keptNewestFirst_append est rest.reverse [l] rem hposrev
    rw [List.reverse_cons, happ, linesCost_reverse, longestFittingSuffix_cons]
    by_cases hfit : linesCost est (l :: rest) ≤ rem
    · have hfit2 := hfit
      rw [linesCost_cons] at hfit2
      have hrest : linesCost est rest ≤ rem := by omega
      rw [if_pos hfit, if_pos hrest]
      rw [keptNewestFirst_full est rest.reverse rem hposrev (by rw [linesCost_reverse]; omega)]
      have hone : keptNewestFirst est [l] (rem - linesCost est rest) = [l] := by
        rw [keptNewestFirst_cons]
        rw [if_neg (by omega), if_neg (by omega)]
        rfl
      rw [hone]
      simp
    · have hfit2 := hfit
      rw [linesCost_cons] at hfit2
      rw [if_neg hfit]
      have hone : (if linesCost est rest ≤ rem then
          keptNewestFirst est [l] (rem - linesCost est rest) else []) = [] := by
        by_cases hrest : linesCost est rest ≤ rem
        · rw [if_pos hrest]
          rw [keptNewestFirst_cons]
          by_cases h0 : rem - linesCost est rest = 0
          · rw [if_pos h0]
          · rw [if_neg h0, if_pos (by omega)]
        · rw [if_neg hrest]
      rw [hone, List.append_nil]
      exact ih rem hposrest

/-- a formatted recent line is never the empty string -/
theorem recentLine_ne_empty (est : String → Nat) (m : RecentMsg) :
    recentLine est m ≠ "" := by
  unfold recentLine
  intro h
  have : ("[" ++ (if m.role = "user" then "User" else "Assistant") ++ "]: " ++
      truncateToTokens m.content RECENT_MSG_MAX_TOKENS est ++ "\n").data = ([] : List Char) := by
    rw [h]
  simp [String.data_append] at this

/-- C8: the recent-conversation block walks the recent list
newest-to-oldest, truncating each message to `RECENT_MSG_MAX_TOKENS`
(character budget tokens × 3 plus a `... [truncated]` marker, inside
`recentLine`), and keeps exactly the longest (oldest-first) suffix of
formatted lines whose total cost fits the remaining budget — the walk
stops at the first over-budget line without skipping to smaller later
messages — emitting the kept lines oldest-first. -/
theorem formatRecentContext_spec (recent : List RecentMsg) (budget : Nat)
    (est : String → Nat) (hpos : ∀ s : String, s ≠ "" → 1 ≤ est s) :
    formatRecentContext recent budget est = claimFormatRecentContext recent budget est := by
  have hkept : ∀ rem, (keptNewestFirst est (recent.map (recentLine est)).reverse rem).reverse =
      longestFittingSuffix est (recent.map (recentLine est)) rem := by
    intro rem
    refine keptNewestFirst_eq_suffix est _ rem ?_
    intro l hl
    rcases List.mem_map.mp hl with ⟨m, _, rfl⟩
    exact hpos _ (recentLine_ne_empty est m)
  unfold formatRecentContext claimFormatRecentContext
  by_cases h1 : recent.isEmpty || budget = 0
  · simp [h1]
  · simp only [h1, Bool.false_eq_true, if_false]
    by_cases h2 : budget ≤ est (recentHeader ++ recentFooter)
    · simp [h2]
    · simp only [h2, if_false, hkept]

/-- C8 witness: with the constant-1 estimator the code and the claim
render the same block on a concrete history. -/
theorem formatRecentContext_spec_witness :
    formatRecentContext [⟨"user", "hi"⟩, ⟨"assistant", "yo"⟩] 100 (fun _ => 1) =
      claimFormatRecentContext [⟨"user", "hi"⟩, ⟨"assistant", "yo"⟩] 100 (fun _ => 1) :=
  formatRecentContext_spec [⟨"user", "hi"⟩, ⟨"assistant", "yo"⟩] 100 (fun _ => 1)
    (fun _ _ => le_refl 1)

theorem splitNl_ne_nil (l : List Char) : splitNl l ≠ [] := by
  cases l with
  | nil => simp [splitNl]
  | cons c cs =>
    simp only [splitNl]
    by_cases h : c = '\n' <;> simp [h]

theorem splitNl_cons (c : Char) (cs : List Char) :
    splitNl (c :: cs) = if c = '\n' then [] :: splitNl cs
      else (c :: (splitNl cs).headD []) :: (splitNl cs).tail := rfl

theorem splitNl_no_nl (l : List Char) (h : '\n' ∉ l) : splitNl l = [l] := by
  induction l with
  | nil => rfl
  | cons c cs ih =>
    have hc : ¬ c = '\n' := fun hc => h (hc ▸ List.mem_cons_self c cs)
    have hcs : '\n' ∉ cs := fun hm => h (List.mem_cons_of_mem c hm)
    simp only [splitNl, if_neg hc, ih hcs]
    rfl

theorem splitNl_append_nl (p rest : List Char) (h : '\n' ∉ p) :
    splitNl (p ++ '\n' :: rest) = p :: splitNl rest := by
  induction p with
  | nil => simp [splitNl]
  | cons c p' ih =>
    have hc : ¬ c = '\n' := fun hc => h (hc ▸ List.mem_cons_self c p')
    have hp' : '\n' ∉ p' := fun hm => h (List.mem_cons_of_mem c hm)
    rw [List.cons_append, splitNl_cons, if_neg hc, ih hp']
    rfl

theorem getLastD_of_ne_nil {α : Type} (l : List α) (d1 d2 : α) (h : l ≠ []) :
    l.getLastD d1 = l.getLastD d2 := by
  cases l with
  | nil => exact absurd rfl h
  | cons a as => rw [List.getLastD_cons, List.getLastD_cons]

theorem feedChunk_eq_foldl (data : List Char) :
    ∀ buf out, '\n' ∉ buf →
      feedChunk (buf, out) data = data.foldl feedChar (buf, out) := by
  induction data with
  | nil =>
    intro buf out hb
    simp [feedChunk, splitNl_no_nl buf hb]
  | cons c cs ih =>
    intro buf out hb
    by_cases hc : c = '\n'
    · subst hc
      have hsplit := splitNl_append_nl buf cs hb
      have hne := splitNl_ne_nil cs
      rw [List.foldl_cons]
      have hstep : feedChar (buf, out) '\n' = ([], out ++ [buf]) := by simp [feedChar]
      rw [hstep, ← ih [] (out ++ [buf]) (by simp)]
      simp only [feedChunk, hsplit, List.nil_append]
      refine Prod.ext ?_ ?_
      · rw [List.getLastD_cons]
        exact getLastD_of_ne_nil _ _ _ hne
      · rw [List.dropLast_cons_of_ne_nil hne]
        simp
    · have hb2 : '\n' ∉ buf ++ [c] := by
        intro hm
        rcases List.mem_append.mp hm with h1 | h1
        · exact hb h1
        · simp at h1; exact hc h1.symm
      have := ih (buf ++ [c]) out hb2
      simp only [List.foldl_cons, feedChar, if_neg hc]
      rw [← this]
      simp only [feedChunk, List.append_assoc, List.cons_append, List.nil_append]

theorem splitNl_last_no_nl (l : List Char) : '\n' ∉ (splitNl l).getLastD [] := by
  induction l with
  | nil => simp [splitNl]
  | cons c cs ih =>
    simp only [splitNl]
    by_cases hc : c = '\n'
    · simp only [if_pos hc]
      rw [List.getLastD_cons]
      rw [getLastD_of_ne_nil _ _ [] (splitNl_ne_nil cs)]
      exact ih
    · simp only [if_neg hc]
      rcases hr : splitNl cs with _ | ⟨h1, t⟩
      · exact absurd hr (splitNl_ne_nil cs)
      · rw [hr] at ih
        cases t with
        | nil =>
          simp only [List.headD_cons, List.tail_cons, List.getLastD_cons] at ih ⊢
          simp at ih ⊢
          exact ⟨fun hx => hc hx.symm, ih⟩
        | cons t1 ts =>
          simp only [List.headD_cons, List.tail_cons, List.getLastD_cons] at ih ⊢
          exact ih

theorem feedChunk_no_nl (st : List Char × List (List Char)) (data : List Char) :
    '\n' ∉ (feedChunk st data).1 := by
  simp only [feedChunk]
  exact splitNl_last_no_nl _

theorem foldl_feedChunk_no_nl (chunks : List (List Char)) :
    ∀ st : List Char × List (List Char), '\n' ∉ st.1 →
      '\n' ∉ (chunks.foldl feedChunk st).1 := by
  induction chunks with
  | nil => intro st h; exact h
  | cons c cs ih =>
    intro st h
    rw [List.foldl_cons]
    exact ih _ (feedChunk_no_nl st c)

theorem feedChunk_append (st : List Char × List (List Char)) (hb : '\n' ∉ st.1)
    (A B : List Char) :
    feedChunk (feedChunk st A) B = feedChunk st (A ++ B) := by
  obtain ⟨buf, out⟩ := st
  rcases e2 : feedChunk (buf, out) A with ⟨buf2, out2⟩
  have hb2 : '\n' ∉ buf2 := by
    have := feedChunk_no_nl (buf, out) A
    rw [e2] at this
    exact this
  rw [feedChunk_eq_foldl B buf2 out2 hb2]
  rw [feedChunk_eq_foldl (A ++ B) buf out hb, List.foldl_append]
  rw [← feedChunk_eq_foldl A buf out hb, e2]

theorem runChunks_snoc2 (pre : List (List Char)) (A B : List Char) :
    runChunks (pre ++ [A, B]) = runChunks (pre ++ [A ++ B]) := by
  unfold runChunks
  rw [List.foldl_append, List.foldl_append]
  simp only [List.foldl_cons, List.foldl_nil]
  exact feedChunk_append _ (foldl_feedChunk_no_nl pre _ (by simp)) A B

/-- C5: the decoder is chunk-boundary invariant — feeding chunk `A`
then chunk `B` (anywhere in the stream) yields the same decoded line
sequence, hence the same segment sequence under any per-line
segmentation `f`, as feeding the single chunk `A ++ B`; and at
end-of-stream the buffered un-terminated fragment is flushed as one
final line (when it has any non-whitespace, matching the `close`
handler's `if (buffer.trim())` guard, whitespace-only fragments being
dropped by `processLine` anyway). -/
theorem decodeLines_chunk_invariant :
    (∀ (pre : List (List Char)) (A B : List Char),
        decodeLines (pre ++ [A, B]) = decodeLines (pre ++ [A ++ B])) ∧
    (∀ (pre : List (List Char)) (A B : List Char) (f : List Char → List StreamSegment),
        (decodeLines (pre ++ [A, B])).flatMap f = (decodeLines (pre ++ [A ++ B])).flatMap f) ∧
    (∀ chunks, hasNonWs (runChunks chunks).1 = true →
        decodeLines chunks = (runChunks chunks).2 ++ [(runChunks chunks).1]) ∧
    (∀ chunks, hasNonWs (runChunks chunks).1 = false →
        decodeLines chunks = (runChunks chunks).2) := by
  have h1 : ∀ (pre : List (List Char)) (A B : List Char),
      decodeLines (pre ++ [A, B]) = decodeLines (pre ++ [A ++ B]) := by
    intro pre A B
    unfold decodeLines
    rw [runChunks_snoc2]
  refine ⟨h1, fun pre A B f => by rw [h1 pre A B], ?_, ?_⟩
  · intro chunks h
    unfold decodeLines
    simp [h]
  · intro chunks h
    unfold decodeLines
    simp [h]

/-- C5 witness: a line split across two chunks decodes as if fed
whole, and a non-blank trailing fragment is flushed at close. -/
theorem decodeLines_chunk_invariant_witness :
    decodeLines [[] ++ ['a', '\n', 'b'], ['c']] = decodeLines [[] ++ ['a', '\n', 'b'] ++ ['c']] ∧
    decodeLines [['a', '\n', 'b']] = [['a']] ++ [['b']] := by
  constructor
  · exact decodeLines_chunk_invariant.1 [] ['a', '\n', 'b'] ['c']
  · have h := decodeLines_chunk_invariant.2.2.1 [['a', '\n', 'b']] (by decide)
    rw [h]
    decide

theorem length_filter_le_one_of_nodup (l : List ProcInfo) (k : Nat) (q : ProcInfo → Bool)
    (hnd : (l.map (fun p => p.pid)).Nodup) (hq : ∀ p, q p = true → p.pid = k) :
    (l.filter q).length ≤ 1 := by
  induction l with
  | nil => simp
  | cons p ps ih =>
    rw [List.map_cons, List.nodup_cons] at hnd
    obtain ⟨hnotin, hnd2⟩ := hnd
    by_cases hqp : q p = true
    · rw [List.filter_cons_of_pos hqp]
      have hnil : ps.filter q = [] := by
        rw [List.filter_eq_nil_iff]
        intro x hx hqx
        exact hnotin (List.mem_map.mpr ⟨x, hx, (hq x hqx).trans (hq p hqp).symm⟩)
      rw [hnil]
      simp
    · rw [List.filter_cons_of_neg (by simpa using hqp)]
      exact ih hnd2

theorem markDead_map_pid (procs : List ProcInfo) (pid : Nat) :
    (markDead procs pid).map (fun p => p.pid) = procs.map (fun p => p.pid) := by
  unfold markDead
  rw [List.map_map]
  refine List.map_congr_left ?_
  intro p _
  by_cases h : p.pid = pid <;> simp [h]

theorem pidsOk_init : pidsOk initSup := by
  constructor
  · intro p hp
    simp [initSup] at hp
  · simp [initSup]

theorem pidsOk_step {s s' : SupState} (h : SupStep s s') (hs : pidsOk s) : pidsOk s' := by
  obtain ⟨hbound, hnd⟩ := hs
  cases h with
  | spawn t =>
    constructor
    · intro p hp
      rcases List.mem_append.mp hp with h1 | h1
      · exact Nat.lt_succ_of_lt (hbound p h1)
      · simp at h1
        subst h1
        exact Nat.lt_succ_self _
    · rw [List.map_append]
      refine List.Nodup.append hnd (by simp) ?_
      intro x hx hy
      simp at hy
      subst hy
      rcases List.mem_map.mp hx with ⟨p, hp, hpid⟩
      exact absurd (hpid ▸ hbound p hp) (lt_irrefl _)
  | childExit pid =>
    constructor
    · intro p hp
      show p.pid < s.next
      have hmem : p.pid ∈ (markDead s.procs pid).map (fun p2 => p2.pid) :=
        List.mem_map_of_mem _ hp
      rw [markDead_map_pid] at hmem
      rcases List.mem_map.mp hmem with ⟨p0, hp0, heq⟩
      exact heq ▸ hbound p0 hp0
    · rw [markDead_map_pid]
      exact hnd
  | finalize t => exact ⟨hbound, hnd⟩
  | spawnError t => exact ⟨hbound, hnd⟩
  | kill t => exact ⟨hbound, hnd⟩

theorem pidsOk_reachable {s : SupState} (h : SupReachable s) : pidsOk s := by
  unfold SupReachable at h
  induction h with
  | refl => exact pidsOk_init
  | tail hsteps hstep ih => exact pidsOk_step hstep ih

/-- C1: in every reachable registry state — under any interleaving of
`sendMessage` spawns, child exits, finalizer / spawn-error
deregistrations and `killProcess` (the only deregistration sites), with
`injectMessage` acting as `kill` then `spawn` — at most one live
subprocess is registered against any thread name. -/
theorem registeredLive_le_one (s : SupState) (hs : SupReachable s) (t : String) :
    (registeredLive s t).length ≤ 1 := by
  have hnd := (pidsOk_reachable hs).2
  unfold registeredLive
  cases hact : s.active t with
  | none =>
    have hnil : s.procs.filter (fun p => p.live && p.thread == t && none == some p.pid) = [] := by
      rw [List.filter_eq_nil_iff]
      intro p hp
      simp
    rw [hnil]
    simp
  | some pid =>
    refine length_filter_le_one_of_nodup s.procs pid _ hnd ?_
    intro p hq
    simp only [Bool.and_eq_true, beq_iff_eq] at hq
    exact (Option.some.inj hq.2).symm

/-- C1 witness: the invariant at the reachable state after one spawn. -/
theorem registeredLive_le_one_witness :
    (registeredLive ⟨[⟨0, "t1", true⟩], updActive (fun _ => none) "t1" (some 0), 1⟩ "t1").length ≤ 1 :=
  registeredLive_le_one _ (Relation.ReflTransGen.single (SupStep.spawn initSup "t1")) "t1"

/-- `processLine` never emits a `stream-end`. -/
theorem processLineEvents_no_end (acc : String) (l : StreamLine) :
    (processLineEvents acc l).filter isStreamEnd = [] := by
  unfold processLineEvents
  rw [List.filter_append, List.filter_eq_nil_iff.mpr, List.filter_eq_nil_iff.mpr]
  · simp
  · intro e he
    rcases List.mem_map.mp he with ⟨seg, _, rfl⟩
    simp [isStreamEnd]
  · intro e he
    cases hx : extractTextFromStreamLine l with
    | none => rw [hx] at he; simp at he
    | some t =>
      rw [hx] at he
      have he2 : e ∈ (if t = "" then ([] : List TurnEvent)
          else (if acc ≠ "" && !endsWithNl acc then [TurnEvent.streamChunk "\n\n"] else [])
            ++ [TurnEvent.streamChunk t]) := he
      by_cases ht : t = ""
      · rw [if_pos ht] at he2
        simp at he2
      · rw [if_neg ht] at he2
        rcases List.mem_append.mp he2 with h1 | h1
        · by_cases hc : (acc ≠ "" && !endsWithNl acc) = true
          · rw [if_pos hc] at h1
            simp at h1
            subst h1
            simp [isStreamEnd]
          · rw [if_neg hc] at h1
            simp at h1
        · simp at h1
          subst h1
          simp [isStreamEnd]

/-- The per-line loop of a turn never emits a `stream-end`. -/
theorem runLines_no_end (lines : List StreamLine) :
    ∀ acc, ((runLines acc lines).2).filter isStreamEnd = [] := by
  induction lines with
  | nil => intro acc; rfl
  | cons l ls ih =>
    intro acc
    simp only [runLines, List.filter_append]
    rw [processLineEvents_no_end, ih]
    rfl

/-- After `handleCompletion` runs, the `completed` flag is set. -/
theorem handleCompletion_completed (appendOk : Bool) (st : TurnState) :
    ((handleCompletion appendOk st).1).completed = true := by
  unfold handleCompletion
  by_cases h : st.completed = true <;> simp [h]

/-- A first invocation of the finalizer emits exactly one `stream-end`. -/
theorem handleCompletion_one_end (appendOk : Bool) (st : TurnState)
    (h : st.completed = false) :
    countStreamEnd (handleCompletion appendOk st).2 = 1 := by
  unfold handleCompletion countStreamEnd
  rw [if_neg (by simp [h])]
  cases hc : completionMessage st.fullResponse with
  | none => simp [isStreamEnd]
  | some m => by_cases ha : appendOk = true <;> simp [ha, isStreamEnd]

/-- C2: for every call to `sendMessage`, exactly one `stream-end` event
is delivered to the subscriber, and the turn's event list ends with it;
the completion finalizer is idempotent — once `completed` is set, a
further invocation is a no-op; and the fatal ENOENT spawn failure
(per the Node contract, `close` still follows `error`) surfaces
`stream-error` `"Claude CLI not found. Please install it first."`
followed by `stream-end{message:null, fallback_text:null}`. -/
theorem runTurn_stream_end_spec :
    (∀ r : ChildRun, countStreamEnd (runTurn r) = 1) ∧
    (∀ r : ChildRun, ∃ m f, (runTurn r).getLast? = some (TurnEvent.streamEnd m f)) ∧
    (∀ (appendOk : Bool) (st : TurnState), st.completed = true →
        handleCompletion appendOk st = (st, [])) ∧
    (∀ (appendOk appendOk2 : Bool) (st : TurnState),
        handleCompletion appendOk2 (handleCompletion appendOk st).1 =
          ((handleCompletion appendOk st).1, [])) ∧
    (∀ msg, containsENOENT msg = true →
        runTurn (.spawnFail msg) =
          [TurnEvent.streamError "Claude CLI not found. Please install it first.",
           TurnEvent.streamEnd none none]) := by
  have hnoop : ∀ (appendOk : Bool) (st : TurnState), st.completed = true →
      handleCompletion appendOk st = (st, []) := by
    intro appendOk st h
    unfold handleCompletion
    rw [if_pos (by simp [h])]
  have hlast : ∀ (appendOk : Bool) (st : TurnState), st.completed = false →
      ∃ m f, (handleCompletion appendOk st).2 = [TurnEvent.streamEnd m f] := by
    intro appendOk st h
    unfold handleCompletion
    rw [if_neg (by simp [h])]
    cases hc : completionMessage st.fullResponse with
    | none => exact ⟨none, none, rfl⟩
    | some m =>
      by_cases ha : appendOk = true
      · exact ⟨some m, some st.fullResponse, by simp [ha]⟩
      · exact ⟨none, some st.fullResponse, by simp [ha]⟩
  refine ⟨?_, ?_, hnoop, ?_, ?_⟩
  · intro r
    cases r with
    | ok lines appendOk =>
      unfold runTurn countStreamEnd
      rw [List.filter_append, runLines_no_end lines ""]
      rw [List.nil_append]
      exact handleCompletion_one_end appendOk ⟨false, (runLines "" lines).1⟩ rfl
    | spawnFail msg =>
      unfold runTurn countStreamEnd
      rw [List.filter_append]
      have h1 : [TurnEvent.streamError (spawnErrorMessage msg)].filter isStreamEnd = [] := by
        simp [isStreamEnd]
      rw [h1, List.nil_append]
      exact handleCompletion_one_end true ⟨false, ""⟩ rfl
  · intro r
    cases r with
    | ok lines appendOk =>
      simp only [runTurn]
      rcases hlast appendOk ⟨false, (runLines "" lines).1⟩ rfl with ⟨m, f, hend⟩
      refine ⟨m, f, ?_⟩
      rw [hend, List.getLast?_append]
      rfl
    | spawnFail msg =>
      simp only [runTurn]
      rcases hlast true ⟨false, ""⟩ rfl with ⟨m, f, hend⟩
      refine ⟨m, f, ?_⟩
      rw [hend, List.getLast?_append]
      rfl
  · intro appendOk appendOk2 st
    exact hnoop appendOk2 _ (handleCompletion_completed appendOk st)
  · intro msg h
    simp only [runTurn, spawnErrorMessage]
    rw [if_pos h]
    have h2 : (handleCompletion true ⟨false, ""⟩).2 = [TurnEvent.streamEnd none none] := by
      unfold handleCompletion completionMessage
      simp
    rw [h2]
    rfl

/-- C2 witness: concrete one-end counts, finalizer no-op and the ENOENT
event sequence. -/
theorem runTurn_stream_end_spec_witness :
    countStreamEnd (runTurn (.ok [] true)) = 1 ∧
    handleCompletion true ⟨true, "x"⟩ = (⟨true, "x"⟩, []) ∧
    runTurn (.spawnFail "spawn claude ENOENT") =
      [TurnEvent.streamError "Claude CLI not found. Please install it first.",
       TurnEvent.streamEnd none none] :=
  ⟨runTurn_stream_end_spec.1 (.ok [] true),
   runTurn_stream_end_spec.2.2.1 true ⟨true, "x"⟩ rfl,
   runTurn_stream_end_spec.2.2.2.2 "spawn claude ENOENT" (by decide)⟩
